import Mathlib

/-!
Verification of the fixed-capacity terminated string buffer
(StaticStringBase and its width variants, src/util/StaticString.hxx).

The store of a buffer of capacity N is modelled as a list of N natural
numbers (the element values); the terminator SENTINEL is the zero element.
The C++ length() scans for the first terminator; writes into the store are
modelled by the writeAt helper, which overwrites elements starting at a
given offset and never changes the size of the store.

The string-primitive collaborators (StringLength, CopyString, CopyASCII,
StringFormat, StringIsEqual and the BasicStringBuffer constructor) live in
headers that are not part of the examined sources, so they are modelled
from the specification, as noted on each definition.
-/

namespace SS

/-- Overwrite the elements of the store s starting at offset i with the
elements of v; writes that would fall past the end of the store are
dropped, and the size of the store never changes.  This models a bounded
sequence of pointer writes into the fixed array. -/
def writeAt : List Nat → Nat → List Nat → List Nat
  | s, _, [] => s
  | [], _, _ => []
  | _ :: s, 0, v :: vs => v :: writeAt s 0 vs
  | c :: s, i + 1, vs => c :: writeAt s i vs

/-- Modelled from the spec: the length-scanning primitive (StringLength /
strlen, StringAPI.hxx is not among the sources): the count of elements
preceding the first terminator, recomputed by scan. -/
def strLen : List Nat → Nat
  | [] => 0
  | c :: s => if c = 0 then 0 else strLen s + 1

/-- The logical content of a store: the elements preceding the first
terminator, i.e. the string value of c_str(). -/
def content (s : List Nat) : List Nat := s.takeWhile (fun c => c != 0)

/-- The store invariant of StaticStringBase: the scan for the terminator
stops strictly before the end of the store, hence
0 <= length() <= capacity - 1 and the element at index length() is 0. -/
def Inv (s : List Nat) : Prop := strLen s < s.length

instance (s : List Nat) : Decidable (Inv s) :=
  inferInstanceAs (Decidable (strLen s < s.length))

/-- Modelled from the spec: CopyString (StringUtil is not among the
sources) copies at most size - 1 elements of v to offset i and writes the
terminator as the final act, truncating silently. -/
def copyString (s : List Nat) (i size : Nat) (v : List Nat) : List Nat :=
  writeAt s i (v.take (size - 1) ++ [0])

/-- StaticStringBase::assign: CopyString(data(), capacity(), new_value). -/
def assign (s v : List Nat) : List Nat := copyString s 0 s.length v

/-- StaticStringBase::append: CopyString(data() + len, capacity() - len,
new_value) with len = length(). -/
def append (s v : List Nat) : List Nat :=
  copyString s (strLen s) (s.length - strLen s) v

/-- StaticStringBase::push_back: if length() >= capacity() - 1 return
false and leave the store unchanged; otherwise write ch and the
terminator at offsets length() and length() + 1 and return true. -/
def push_back (s : List Nat) (c : Nat) : List Nat × Bool :=
  let l := strLen s
  if s.length - 1 ≤ l then (s, false)
  else (writeAt s l [c, 0], true)

/-- StaticStringBase::Truncate: write the terminator at index new_length
(precondition new_length <= length(), checked only by a debug assertion). -/
def truncate (s : List Nat) (n : Nat) : List Nat := writeAt s n [0]

/-- Modelled from the spec: SetASCII copies elements from the source,
stopping at capacity - 1 elements or at the source terminator, whichever
comes first, and always writes the terminator as the final act
(CopyASCII of ASCII.hxx is not among the sources). -/
def setASCII (s src : List Nat) : List Nat :=
  writeAt s 0 ((content src).take (s.length - 1) ++ [0])

/-- Modelled from the spec: CleanASCII scans the current content, drops
every element with value >= 128, shifts the remaining elements left to
stay contiguous and writes the terminator at the new length (the in-place
CopyASCII of ASCII.hxx is not among the sources). -/
def cleanASCII (s : List Nat) : List Nat :=
  writeAt s 0 ((content s).filter (fun c => c < 128) ++ [0])

/-- Modelled from the spec: the bounded rendering primitive StringFormat
(snprintf; StringFormat.hpp is not among the sources).  The rendering of
the template with its arguments is abstracted as an Except value r: an
error makes the primitive report a negative length and leave the sink
alone, and a rendered text t is written truncated to size - 1 elements
followed by the terminator, the full length of t being reported. -/
def stringFormat (s : List Nat) (i size : Nat) (r : Except Unit (List Nat)) :
    List Nat × Int :=
  match r with
  | .error _ => (s, -1)
  | .ok t =>
      (if size = 0 then s else writeAt s i (t.take (size - 1) ++ [0]),
       (t.length : Int))

/-- StaticStringBase::Format: StringFormat(data(), capacity(), ...); on a
negative result return the empty view, otherwise clamp the reported
length to capacity() - 1 and return the view of that many leading store
elements. -/
def format (s : List Nat) (r : Except Unit (List Nat)) :
    List Nat × List Nat :=
  let p := stringFormat s 0 s.length r
  if p.2 < 0 then (p.1, [])
  else
    let len := p.2.toNat
    let len := if s.length ≤ len then s.length - 1 else len
    (p.1, p.1.take len)

/-- StaticStringBase::AppendFormat: StringFormat(data() + l,
capacity() - l, ...) with l = length(); the reported length is discarded. -/
def appendFormat (s : List Nat) (r : Except Unit (List Nat)) : List Nat :=
  (stringFormat s (strLen s) (s.length - strLen s) r).1

/-- The operator += overload taking a single element: it calls push_back
and discards its boolean result, returning only the buffer. -/
def opPlusEqChar (s : List Nat) (c : Nat) : List Nat := (push_back s c).1

/-- CropIncompleteUTF8 of the wide variant StaticString over wchar_t: an
empty body (a wide string is not multi-byte, so there are no incomplete
sequences). -/
def cropIncompleteUTF8Wide (s : List Nat) : List Nat := s

/-- Modelled from the spec: StringIsEqual (StringAPI.hxx is not among the
sources) is a terminator-aware element-wise comparison, i.e. equality of
the contents of the two stores. -/
def stringIsEqual (a b : List Nat) : Bool := content a == content b

/-- The operator == overload over two buffers of possibly different
capacities: equals(other.c_str()), i.e. StringIsEqual on the two
contents. -/
def equalsOp (a b : List Nat) : Bool := stringIsEqual a b

/-- Modelled from the spec: a buffer is created empty, with the
terminator at index 0 (the default constructor of BasicStringBuffer,
StringBuffer.hxx, is not among the sources). -/
def mkDefault (N : Nat) : List Nat := List.replicate N 0

/-- The public operations of claim C1, with the rendering of each format
template abstracted as an Except value. -/
inductive Op where
  | assign (v : List Nat)
  | append (v : List Nat)
  | push (c : Nat)
  | truncate (n : Nat)
  | setASCII (src : List Nat)
  | cleanASCII
  | format (r : Except Unit (List Nat))
  | appendFormat (r : Except Unit (List Nat))

/-- One public call on the buffer. -/
def step (s : List Nat) : Op → List Nat
  | .assign v => SS.assign s v
  | .append v => SS.append s v
  | .push c => (SS.push_back s c).1
  | .truncate n => SS.truncate s n
  | .setASCII src => SS.setASCII s src
  | .cleanASCII => SS.cleanASCII s
  | .format r => (SS.format s r).1
  | .appendFormat r => SS.appendFormat s r

/-- Run a sequence of public calls. -/
def run (s : List Nat) : List Op → List Nat
  | [] => s
  | op :: ops => run (step s op) ops

/-- The sequence respects the precondition of Truncate at each call. -/
def validSeq (s : List Nat) : List Op → Bool
  | [] => true
  | op :: ops =>
      (match op with
       | .truncate n => decide (n ≤ strLen s)
       | _ => true) && validSeq (step s op) ops

/-- A concrete sequence of public calls exercising every operation, used
as the concrete input of the invariant claim. -/
def c1ops : List Op :=
  [Op.assign [104, 105, 106, 107, 108], Op.truncate 2,
   Op.appendFormat (Except.ok [49, 50]), Op.push 33, Op.cleanASCII,
   Op.setASCII [200, 65, 0], Op.append [66], Op.format (Except.error ())]

/-! Basic facts about writeAt, strLen and content. -/

lemma writeAt_length (s : List Nat) (i : Nat) (v : List Nat) :
    (writeAt s i v).length = s.length := by
  induction s generalizing i v with
  | nil => cases v <;> rfl
  | cons c s ih =>
    cases v with
    | nil => simp [writeAt]
    | cons a vs =>
      cases i with
      | zero => simpa [writeAt] using ih 0 vs
      | succ j => simpa [writeAt] using ih j (a :: vs)

lemma writeAt_fit (s : List Nat) (i : Nat) (v : List Nat)
    (h : i + v.length ≤ s.length) :
    writeAt s i v = s.take i ++ v ++ s.drop (i + v.length) := by
  induction s generalizing i v with
  | nil =>
    have hv : v = [] := by
      cases v with
      | nil => rfl
      | cons a vs => simp at h
    subst hv
    simp [writeAt]
  | cons c s ih =>
    cases v with
    | nil => simp [writeAt]
    | cons a vs =>
      cases i with
      | zero =>
        have hfit : 0 + vs.length ≤ s.length := by
          simp at h; omega
        simp [writeAt, ih 0 vs hfit]
      | succ j =>
        have hfit : j + (a :: vs).length ≤ s.length := by
          simp at h ⊢; omega
        simp [writeAt, ih j (a :: vs) hfit, Nat.succ_add]

lemma strLen_le_length (s : List Nat) : strLen s ≤ s.length := by
  induction s with
  | nil => simp [strLen]
  | cons c s ih =>
    by_cases hc : c = 0 <;> simp [strLen, hc] <;> omega

lemma getElem?_strLen (s : List Nat) (h : strLen s < s.length) :
    s[strLen s]? = some 0 := by
  induction s with
  | nil => simp at h
  | cons c s ih =>
    by_cases hc : c = 0
    · simp [strLen, hc]
    · have h' : strLen s < s.length := by
        simp [strLen, hc] at h
        omega
      simpa [strLen, hc] using ih h'

lemma strLen_append_cons_le (a r : List Nat) :
    strLen (a ++ 0 :: r) ≤ a.length := by
  induction a with
  | nil => simp [strLen]
  | cons c a ih =>
    by_cases hc : c = 0 <;> simp [strLen, hc] <;> omega

lemma strLen_append_cons (a r : List Nat) (h : ∀ x ∈ a, x ≠ 0) :
    strLen (a ++ 0 :: r) = a.length := by
  induction a with
  | nil => simp [strLen]
  | cons c a ih =>
    have hc : c ≠ 0 := h c (by simp)
    have ih' := ih (fun x hx => h x (by simp [hx]))
    simp [strLen, hc, ih']

lemma content_append_cons (a r : List Nat) (h : ∀ x ∈ a, x ≠ 0) :
    content (a ++ 0 :: r) = a := by
  induction a with
  | nil => simp [content]
  | cons c a ih =>
    have hc : c ≠ 0 := h c (by simp)
    have ih' := ih (fun x hx => h x (by simp [hx]))
    simp only [content, List.cons_append, List.takeWhile_cons] at ih' ⊢
    simp [hc, ih']

lemma strLen_eq_length_content (s : List Nat) :
    strLen s = (content s).length := by
  induction s with
  | nil => simp [strLen, content]
  | cons c s ih =>
    by_cases hc : c = 0
    · simp [strLen, content, hc]
    · simp only [content, List.takeWhile_cons] at ih ⊢
      simp [strLen, hc, ih]

lemma mem_content_ne_zero (s : List Nat) {x : Nat} (hx : x ∈ content s) :
    x ≠ 0 := by
  simp only [content] at hx
  simpa using List.mem_takeWhile_imp hx

lemma content_take_strLen (s : List Nat) : content s = s.take (strLen s) := by
  induction s with
  | nil => simp [content, strLen]
  | cons c s ih =>
    by_cases hc : c = 0
    · simp [content, strLen, hc]
    · simp only [content, List.takeWhile_cons] at ih ⊢
      simp [strLen, hc, ih]

/-- Writing a terminated block that fits inside the store establishes the
invariant and preserves the capacity. -/
lemma inv_writeAt (s u : List Nat) (i : Nat)
    (h : i + u.length + 1 ≤ s.length) :
    Inv (writeAt s i (u ++ [0])) ∧ (writeAt s i (u ++ [0])).length = s.length := by
  have hfit : i + (u ++ [0]).length ≤ s.length := by
    simp only [List.length_append, List.length_singleton]
    omega
  have hlen := writeAt_length s i (u ++ [0])
  have heq : writeAt s i (u ++ [0])
      = (s.take i ++ u) ++ 0 :: s.drop (i + (u ++ [0]).length) := by
    rw [writeAt_fit s i (u ++ [0]) hfit]
    simp
  refine ⟨?_, hlen⟩
  unfold Inv
  rw [hlen, heq]
  have hle := strLen_append_cons_le (s.take i ++ u)
    (s.drop (i + (u ++ [0]).length))
  have hti : (s.take i ++ u).length ≤ i + u.length := by
    simp only [List.length_append, List.length_take]
    have := Nat.min_le_left i s.length
    omega
  omega

/-! Preservation of the store invariant by every public operation. -/

lemma inv_copyString (s v : List Nat) (i size : Nat)
    (hi : i + size ≤ s.length) (hsz : 1 ≤ size) :
    Inv (copyString s i size v) ∧ (copyString s i size v).length = s.length := by
  unfold copyString
  apply inv_writeAt
  have : (v.take (size - 1)).length ≤ size - 1 := by
    rw [List.length_take]
    exact Nat.min_le_left _ _
  omega

lemma inv_length_pos (s : List Nat) (h : Inv s) : 1 ≤ s.length := by
  have := Nat.zero_le (strLen s)
  unfold Inv at h
  omega

lemma inv_assign (s v : List Nat) (h : Inv s) :
    Inv (assign s v) ∧ (assign s v).length = s.length := by
  unfold assign
  exact inv_copyString s v 0 s.length (by omega) (inv_length_pos s h)

lemma inv_append (s v : List Nat) (h : Inv s) :
    Inv (append s v) ∧ (append s v).length = s.length := by
  unfold append
  have hl : strLen s < s.length := h
  exact inv_copyString s v (strLen s) (s.length - strLen s)
    (by omega) (by omega)

lemma inv_push_back (s : List Nat) (c : Nat) (h : Inv s) :
    Inv (push_back s c).1 ∧ (push_back s c).1.length = s.length := by
  unfold push_back
  by_cases hfull : s.length - 1 ≤ strLen s
  · simp only [hfull, if_pos]
    exact ⟨h, trivial⟩
  · simp only [hfull, if_neg, not_false_iff]
    have hl : strLen s < s.length := h
    have : strLen s + 1 + 1 ≤ s.length := by omega
    simpa using inv_writeAt s [c] (strLen s) (by simpa using this)

lemma inv_truncate (s : List Nat) (n : Nat) (h : Inv s)
    (hpre : n ≤ strLen s) :
    Inv (truncate s n) ∧ (truncate s n).length = s.length := by
  unfold truncate
  have hl : strLen s < s.length := h
  simpa using inv_writeAt s [] n (by simpa using by omega)

lemma inv_setASCII (s src : List Nat) (h : Inv s) :
    Inv (setASCII s src) ∧ (setASCII s src).length = s.length := by
  unfold setASCII
  apply inv_writeAt
  have h1 : ((content src).take (s.length - 1)).length ≤ s.length - 1 := by
    rw [List.length_take]
    exact Nat.min_le_left _ _
  have := inv_length_pos s h
  omega

lemma inv_cleanASCII (s : List Nat) (h : Inv s) :
    Inv (cleanASCII s) ∧ (cleanASCII s).length = s.length := by
  unfold cleanASCII
  apply inv_writeAt
  have h1 : ((content s).filter (fun c => c < 128)).length ≤ (content s).length :=
    List.length_filter_le _ _
  have h2 := strLen_eq_length_content s
  have hl : strLen s < s.length := h
  omega

lemma stringFormat_fst_inv (s : List Nat) (i size : Nat)
    (r : Except Unit (List Nat)) (hi : i + size ≤ s.length) (hsz : 1 ≤ size) :
    Inv (stringFormat s i size r).1 ∨ (stringFormat s i size r).1 = s := by
  match r with
  | .error e => exact Or.inr rfl
  | .ok t =>
      left
      have hz : ¬ size = 0 := by omega
      simp only [stringFormat, hz, if_neg, not_false_iff]
      have h1 : (t.take (size - 1)).length ≤ size - 1 := by
        rw [List.length_take]
        exact Nat.min_le_left _ _
      exact (inv_writeAt s (t.take (size - 1)) i (by omega)).1

lemma stringFormat_fst_length (s : List Nat) (i size : Nat)
    (r : Except Unit (List Nat)) :
    (stringFormat s i size r).1.length = s.length := by
  match r with
  | .error e => rfl
  | .ok t =>
      by_cases hz : size = 0
      · simp [stringFormat, hz]
      · simp [stringFormat, hz, writeAt_length]

lemma format_fst (s : List Nat) (r : Except Unit (List Nat)) :
    (format s r).1 = (stringFormat s 0 s.length r).1 := by
  unfold format
  dsimp only
  split
  · rfl
  · rfl

lemma inv_format (s : List Nat) (r : Except Unit (List Nat)) (h : Inv s) :
    Inv (format s r).1 ∧ (format s r).1.length = s.length := by
  rw [format_fst]
  refine ⟨?_, stringFormat_fst_length s 0 s.length r⟩
  rcases stringFormat_fst_inv s 0 s.length r (by omega) (inv_length_pos s h) with
    hi | hs
  · exact hi
  · rw [hs]
    exact h

lemma inv_appendFormat (s : List Nat) (r : Except Unit (List Nat)) (h : Inv s) :
    Inv (appendFormat s r) ∧ (appendFormat s r).length = s.length := by
  unfold appendFormat
  have hl : strLen s < s.length := h
  refine ⟨?_, stringFormat_fst_length s (strLen s) (s.length - strLen s) r⟩
  rcases stringFormat_fst_inv s (strLen s) (s.length - strLen s) r
      (by omega) (by omega) with hi | hs
  · exact hi
  · rw [hs]
    exact h

lemma inv_step (s : List Nat) (op : Op) (hInv : Inv s)
    (hval : (match op with
             | .truncate n => decide (n ≤ strLen s)
             | _ => true) = true) :
    Inv (step s op) ∧ (step s op).length = s.length := by
  cases op with
  | assign v => exact inv_assign s v hInv
  | append v => exact inv_append s v hInv
  | push c => exact inv_push_back s c hInv
  | truncate n =>
      exact inv_truncate s n hInv (by simpa using hval)
  | setASCII src => exact inv_setASCII s src hInv
  | cleanASCII => exact inv_cleanASCII s hInv
  | format r => exact inv_format s r hInv
  | appendFormat r => exact inv_appendFormat s r hInv

lemma inv_run (s : List Nat) (ops : List Op) (hInv : Inv s)
    (hval : validSeq s ops = true) :
    Inv (run s ops) ∧ (run s ops).length = s.length := by
  induction ops generalizing s with
  | nil => exact ⟨hInv, rfl⟩
  | cons op ops ih =>
    simp only [validSeq, Bool.and_eq_true] at hval
    have hstep := inv_step s op hInv hval.1
    have := ih (step s op) hstep.1 hval.2
    exact ⟨this.1, this.2.trans hstep.2⟩

lemma writeAt_pair (s : List Nat) (i : Nat) (c d : Nat)
    (h : i + 2 ≤ s.length) :
    writeAt s i [c, d] = (s.set i c).set (i + 1) d := by
  induction s generalizing i with
  | nil => simp at h
  | cons a s ih =>
    cases i with
    | zero =>
      cases s with
      | nil => simp at h
      | cons b s' => simp [writeAt]
    | succ j =>
      have hj : j + 2 ≤ s.length := by
        simp at h
        omega
      simp [writeAt, ih j hj]

lemma content_cleanASCII (s : List Nat) (h : Inv s) :
    content (cleanASCII s) = (content s).filter (fun c => c < 128) := by
  have hl : strLen s < s.length := h
  have hlen : ((content s).filter (fun c => c < 128)).length ≤ strLen s := by
    rw [strLen_eq_length_content]
    exact List.length_filter_le _ _
  have hfit : 0 + ((content s).filter (fun c => c < 128) ++ [0]).length
      ≤ s.length := by
    simp only [List.length_append, List.length_singleton]
    omega
  unfold cleanASCII
  rw [writeAt_fit s 0 _ hfit]
  simp only [List.take_zero, List.nil_append, Nat.zero_add, List.append_assoc,
    List.singleton_append]
  exact content_append_cons _ _
    (fun x hx => mem_content_ne_zero s (List.mem_filter.mp hx).1)

/-! The claims. -/

/-- C1: for every capacity N, every buffer satisfying the store invariant
and every sequence of public operations (assign, append, push_back,
Truncate with its precondition, SetASCII, CleanASCII, Format,
AppendFormat), after each call the capacity is preserved, the length
satisfies 0 <= length() <= N - 1, and the element at index length() is
the terminator. -/
theorem bound_invariant (N : Nat) (s : List Nat) (ops : List Op)
    (hcap : s.length = N) (hInv : Inv s) (hval : validSeq s ops = true) :
    (run s ops).length = N ∧ strLen (run s ops) + 1 ≤ N ∧
      (run s ops)[strLen (run s ops)]? = some 0 := by
  have h := inv_run s ops hInv hval
  have h1 : strLen (run s ops) < (run s ops).length := h.1
  have h2 : (run s ops).length = N := by rw [h.2, hcap]
  exact ⟨h2, by omega, getElem?_strLen _ h1⟩

/-- Witness for C1: a capacity-4 buffer taken through a concrete sequence
exercising every public operation. -/
theorem bound_invariant_witness :
    ([0, 0, 0, 0] : List Nat).length = 4 ∧ Inv ([0, 0, 0, 0] : List Nat) ∧
      validSeq [0, 0, 0, 0] c1ops = true ∧
      ((run [0, 0, 0, 0] c1ops).length = 4 ∧
        strLen (run [0, 0, 0, 0] c1ops) + 1 ≤ 4 ∧
        (run [0, 0, 0, 0] c1ops)[strLen (run [0, 0, 0, 0] c1ops)]? = some 0) :=
  ⟨rfl, by decide, by decide,
    bound_invariant 4 [0, 0, 0, 0] c1ops rfl (by decide) (by decide)⟩

/-- C2 as stated is false: on a capacity-4 buffer holding the single
element x, AppendFormat rendering the three digits 123 leaves the content
x12, not the claimed x1. -/
theorem appendFormat_boundary_counterexample :
    content (appendFormat [120, 0, 0, 0] (Except.ok [49, 50, 51]))
      ≠ [120, 49] := by decide

/-- C2 amended: for a buffer of capacity 4 whose content is x, an
AppendFormat call whose rendering is the digits 123 leaves the buffer
content exactly x12 (two digits fit before the reserved terminator slot),
not x123 and not x1. -/
theorem appendFormat_boundary :
    appendFormat [120, 0, 0, 0] (Except.ok [49, 50, 51]) = [120, 49, 50, 0] ∧
      content (appendFormat [120, 0, 0, 0] (Except.ok [49, 50, 51]))
        = [120, 49, 50] := by decide

/-- C3: push_back writes ch and the terminator at indices length() and
length() + 1 and returns true exactly when length() < capacity - 1
beforehand; on a full buffer it returns false with the whole store
unchanged, and a repeated failing call behaves identically. -/
theorem push_back_spec (s : List Nat) (c : Nat) (h : Inv s) :
    ((push_back s c).2 = true ↔ strLen s + 1 < s.length) ∧
    (strLen s + 1 < s.length →
      (push_back s c).1 = (s.set (strLen s) c).set (strLen s + 1) 0) ∧
    (strLen s + 1 = s.length →
      push_back s c = (s, false) ∧
      push_back (push_back s c).1 c = (s, false)) := by
  have hl : strLen s < s.length := h
  by_cases hfull : s.length - 1 ≤ strLen s
  · have hfst : push_back s c = (s, false) := by
      simp [push_back, hfull]
    refine ⟨?_, fun hc => absurd hc (by omega),
      fun _ => ⟨hfst, by rw [hfst]; exact hfst⟩⟩
    rw [hfst]
    simp only [Bool.false_eq_true, false_iff]
    omega
  · have hsucc : push_back s c = (writeAt s (strLen s) [c, 0], true) := by
      simp [push_back, hfull]
    refine ⟨?_, fun _ => ?_, fun hc => absurd hc (by omega)⟩
    · rw [hsucc]
      simp only [true_iff]
      omega
    · rw [hsucc]
      exact writeAt_pair s (strLen s) c 0 (by omega)

/-- Witness for C3 on a concrete capacity-3 buffer holding one element. -/
theorem push_back_spec_witness :
    Inv ([97, 0, 0] : List Nat) ∧
    (((push_back [97, 0, 0] 98).2 = true ↔
        strLen [97, 0, 0] + 1 < ([97, 0, 0] : List Nat).length) ∧
     (strLen [97, 0, 0] + 1 < ([97, 0, 0] : List Nat).length →
       (push_back [97, 0, 0] 98).1
         = (([97, 0, 0] : List Nat).set (strLen [97, 0, 0]) 98).set
             (strLen [97, 0, 0] + 1) 0) ∧
     (strLen [97, 0, 0] + 1 = ([97, 0, 0] : List Nat).length →
       push_back [97, 0, 0] 98 = ([97, 0, 0], false) ∧
       push_back (push_back [97, 0, 0] 98).1 98 = ([97, 0, 0], false))) :=
  ⟨by decide, push_back_spec [97, 0, 0] 98 (by decide)⟩

/-- C4: Format writes the rendered text into the store at offset 0; when
the full rendering would not fit, the returned view has exactly
capacity - 1 elements (never capacity or more) and is the rendered text
truncated to capacity - 1 elements; when the rendering primitive reports
a negative length, Format returns the empty view with the store
unchanged. -/
theorem format_spec (s t : List Nat) (h : Inv s) :
    (s.length ≤ t.length →
      ((format s (Except.ok t)).2).length = s.length - 1 ∧
      (format s (Except.ok t)).2 = t.take (s.length - 1)) ∧
    format s (Except.error ()) = (s, []) := by
  have hN := inv_length_pos s h
  constructor
  · intro hle
    have hz : ¬ s.length = 0 := by omega
    have hu : (t.take (s.length - 1)).length = s.length - 1 := by
      rw [List.length_take]
      omega
    have hp : stringFormat s 0 s.length (Except.ok t)
        = (writeAt s 0 (t.take (s.length - 1) ++ [0]), (t.length : Int)) := by
      simp [stringFormat, hz]
    have hneg : ¬ ((t.length : Int) < 0) := by omega
    have hform : format s (Except.ok t)
        = (writeAt s 0 (t.take (s.length - 1) ++ [0]),
           (writeAt s 0 (t.take (s.length - 1) ++ [0])).take (s.length - 1)) := by
      unfold format
      rw [hp]
      simp [hneg, hle]
    have hfit : 0 + (t.take (s.length - 1) ++ [0]).length ≤ s.length := by
      simp only [List.length_append, List.length_singleton, hu]
      omega
    have htake : (writeAt s 0 (t.take (s.length - 1) ++ [0])).take (s.length - 1)
        = t.take (s.length - 1) := by
      rw [writeAt_fit s 0 _ hfit]
      simp only [List.take_zero, List.nil_append, Nat.zero_add]
      rw [List.take_append_of_le_length (by simp [hu])]
      rw [List.take_append_of_le_length (le_of_eq hu.symm)]
      rw [List.take_take, min_self]
    constructor
    · rw [hform]
      dsimp only
      rw [htake, List.length_take]
      omega
    · rw [hform]
      exact htake
  · rfl

/-- Witness for C4: capacity 3, a rendering of three digits truncated to
two, and the error case. -/
theorem format_spec_witness :
    Inv ([0, 0, 0] : List Nat) ∧
    ((([0, 0, 0] : List Nat).length ≤ ([49, 50, 51] : List Nat).length →
       ((format [0, 0, 0] (Except.ok [49, 50, 51])).2).length
         = ([0, 0, 0] : List Nat).length - 1 ∧
       (format [0, 0, 0] (Except.ok [49, 50, 51])).2
         = ([49, 50, 51] : List Nat).take (([0, 0, 0] : List Nat).length - 1)) ∧
     format [0, 0, 0] (Except.error ()) = ([0, 0, 0], [])) :=
  ⟨by decide, format_spec [0, 0, 0] [49, 50, 51] (by decide)⟩

/-- C5: operator == over two buffers of possibly different capacities
returns true exactly when their contents (the elements before the
terminator) are identical; the capacities of the two stores never enter
the comparison. -/
theorem operatorEq_content_only (a b : List Nat) :
    equalsOp a b = true ↔ content a = content b := by
  simp [equalsOp, stringIsEqual]

/-- C6: under the precondition new_length <= length(), Truncate writes
the terminator at index new_length and afterwards length() equals
new_length. -/
theorem truncate_spec (s : List Nat) (n : Nat) (h : Inv s)
    (hpre : n ≤ strLen s) :
    strLen (truncate s n) = n ∧ (truncate s n)[n]? = some 0 := by
  have hl : strLen s < s.length := h
  have heq : truncate s n = s.take n ++ 0 :: s.drop (n + 1) := by
    unfold truncate
    rw [writeAt_fit s n [0] (by simp; omega)]
    simp
  have hnz : ∀ x ∈ s.take n, x ≠ 0 := by
    intro x hx
    apply mem_content_ne_zero s
    rw [content_take_strLen]
    have hsub : s.take n = (s.take (strLen s)).take n := by
      rw [List.take_take, min_eq_left hpre]
    rw [hsub] at hx
    exact List.take_subset n _ hx
  have hlen : (s.take n).length = n := by
    rw [List.length_take]
    omega
  have h1 : strLen (truncate s n) = n := by
    rw [heq, strLen_append_cons _ _ hnz, hlen]
  refine ⟨h1, ?_⟩
  have h2 := getElem?_strLen (truncate s n) (inv_truncate s n h hpre).1
  rwa [h1] at h2

/-- Witness for C6: truncating a two-element content to length 1. -/
theorem truncate_spec_witness :
    Inv ([97, 98, 0, 0] : List Nat) ∧ 1 ≤ strLen [97, 98, 0, 0] ∧
      (strLen (truncate [97, 98, 0, 0] 1) = 1 ∧
        (truncate [97, 98, 0, 0] 1)[1]? = some 0) :=
  ⟨by decide, by decide, truncate_spec [97, 98, 0, 0] 1 (by decide) (by decide)⟩

/-- C7: CropIncompleteUTF8 of the wide variant is a no-op: every element
of the store, hence the content and the length, is left unchanged. -/
theorem cropIncompleteUTF8Wide_noop (s : List Nat) :
    cropIncompleteUTF8Wide s = s ∧
    (∀ i : Nat, (cropIncompleteUTF8Wide s)[i]? = s[i]?) ∧
    content (cropIncompleteUTF8Wide s) = content s ∧
    strLen (cropIncompleteUTF8Wide s) = strLen s :=
  ⟨rfl, fun _ => rfl, rfl, rfl⟩

/-- C8: CleanASCII is idempotent on the content, and on content free of
elements with value at least 128 it changes nothing. -/
theorem cleanASCII_idempotent (s : List Nat) (h : Inv s) :
    content (cleanASCII (cleanASCII s)) = content (cleanASCII s) ∧
    ((∀ x ∈ content s, x < 128) → content (cleanASCII s) = content s) := by
  have h2 : Inv (cleanASCII s) := (inv_cleanASCII s h).1
  constructor
  · rw [content_cleanASCII _ h2, content_cleanASCII s h]
    exact List.filter_eq_self.mpr (fun a ha => (List.mem_filter.mp ha).2)
  · intro hall
    rw [content_cleanASCII s h]
    exact List.filter_eq_self.mpr (fun a ha => by simpa using hall a ha)

/-- Witness for C8 on a buffer holding one non-ASCII element. -/
theorem cleanASCII_idempotent_witness :
    Inv ([65, 200, 66, 0, 0] : List Nat) ∧
    (content (cleanASCII (cleanASCII [65, 200, 66, 0, 0]))
        = content (cleanASCII [65, 200, 66, 0, 0]) ∧
     ((∀ x ∈ content [65, 200, 66, 0, 0], x < 128) →
        content (cleanASCII [65, 200, 66, 0, 0]) = content [65, 200, 66, 0, 0])) :=
  ⟨by decide, cleanASCII_idempotent [65, 200, 66, 0, 0] (by decide)⟩

/-- C9: a default-constructed buffer is empty: the terminator is at index
0 and length() is 0. -/
theorem mkDefault_empty (N : Nat) (h : 1 ≤ N) :
    strLen (mkDefault N) = 0 ∧ (mkDefault N)[0]? = some 0 ∧
      (mkDefault N).length = N := by
  obtain ⟨n, rfl⟩ : ∃ n, N = n + 1 := ⟨N - 1, by omega⟩
  unfold mkDefault
  exact ⟨by simp [List.replicate_succ, strLen],
    by simp [List.replicate_succ], by simp⟩

/-- Witness for C9 at capacity 8. -/
theorem mkDefault_empty_witness :
    1 ≤ 8 ∧ (strLen (mkDefault 8) = 0 ∧ (mkDefault 8)[0]? = some 0 ∧
      (mkDefault 8).length = 8) :=
  ⟨by decide, mkDefault_empty 8 (by decide)⟩

/-- C10: on a full buffer the operator += overload taking one element
calls push_back, whose result is false, discards that result and returns
the buffer with the store completely unchanged, giving the caller no
indication of the rejection. -/
theorem opPlusEqChar_discards_failure (s : List Nat) (c : Nat)
    (h : strLen s + 1 = s.length) :
    opPlusEqChar s c = s ∧ push_back s c = (s, false) := by
  have hfull : s.length - 1 ≤ strLen s := by omega
  have hfst : push_back s c = (s, false) := by
    simp [push_back, hfull]
  exact ⟨by unfold opPlusEqChar; rw [hfst], hfst⟩

/-- Witness for C10 on a full capacity-2 buffer. -/
theorem opPlusEqChar_discards_failure_witness :
    strLen [97, 0] + 1 = ([97, 0] : List Nat).length ∧
      (opPlusEqChar [97, 0] 98 = [97, 0] ∧
        push_back [97, 0] 98 = ([97, 0], false)) :=
  ⟨by decide, opPlusEqChar_discards_failure [97, 0] 98 (by decide)⟩

end SS
